import Mathlib

/-!
Verification of the Gaussian-process posterior-state core of this
repository (batch construction, incremental update, predictive query),
together with the cost-model construction of
benchmarking/definitions/definition_nashpobench.py.

The posterior-state engine itself is not among the repository's staged
source files (only its test, tst/schedulers/bayesopt/gpautograd/
test_posterior_state.py, is), so the engine is modelled from the
specification, in exact real arithmetic: floating-point tolerances of the
spec become exact equalities here, and the jitter retry loop is not needed
(in exact arithmetic a positive-definite matrix factorizes at once).
-/

noncomputable section

open Finset

/-- Modelled from the spec: the error taxonomy of §7 (the code of the
engine is missing from the staged sources).  Errors are value-carrying:
the validation error records the two row counts and the noise variance. -/
inductive GPError where
  | validationError (rowsFeatures rowsTargets : Nat) (noise : ℝ)
  | numericalInstabilityError
  | dimensionError
  deriving DecidableEq

/-- Modelled from the spec: a Likelihood owns the kernel, the mean
function and the observation-noise variance (§3).  Feature vectors are
D-dimensional real vectors, targets P-dimensional (P ≥ 1, typically 1). -/
structure Likelihood (D P : Nat) where
  kernel : (Fin D → ℝ) → (Fin D → ℝ) → ℝ
  mean : (Fin D → ℝ) → (Fin P → ℝ)
  noise_variance : ℝ

/-- Modelled from the spec: the fixed lower bound on the noise variance
(§3: "a scalar noise-variance ≥ a fixed lower bound (never exactly
zero)").  The spec fixes no numeric value; any positive constant serves. -/
def noiseLowerBound : ℝ := 1 / 1000000000

theorem noiseLowerBound_pos : 0 < noiseLowerBound := by
  unfold noiseLowerBound; norm_num

/-- Modelled from the spec: the immutable PosteriorState value of §3.
Rows are indexed by Nat; only indices below `n` are meaningful, so that
extending the data by one row never forces a dependent-type cast.  The
kernel and mean are carried in the state because `update` recomputes
cross-covariances against the stored features. -/
structure PosteriorState (D P : Nat) where
  n : Nat
  features : Nat → (Fin D → ℝ)
  targets : Nat → (Fin P → ℝ)
  chol_fact : Nat → Nat → ℝ
  pred_mat : Nat → (Fin P → ℝ)
  kernel : (Fin D → ℝ) → (Fin D → ℝ) → ℝ
  mean : (Fin D → ℝ) → (Fin P → ℝ)
  noise_variance : ℝ

/-- The regularized covariance matrix `A = K(X,X) + noise_variance·I`
built from a row-indexed feature sequence. -/
def covMat {D : Nat} (kern : (Fin D → ℝ) → (Fin D → ℝ) → ℝ)
    (f : Nat → (Fin D → ℝ)) (noise : ℝ) : Nat → Nat → ℝ :=
  fun i j => kern (f i) (f j) + (if i = j then noise else 0)

/-- One step of the outer-product Cholesky factorization: the Schur
complement of the (0,0) pivot. -/
def schurStep (A : Nat → Nat → ℝ) : Nat → Nat → ℝ :=
  fun i j => A (i + 1) (j + 1) - A (i + 1) 0 * A (j + 1) 0 / A 0 0

/-- Reassemble the factor of an (n+1)-block from the pivot column of `A`
and the factor `L` of the Schur complement's n-block.  Entries outside
the (n+1)-block are zero. -/
def extendChol (n : Nat) (A : Nat → Nat → ℝ) (L : Nat → Nat → ℝ) :
    Nat → Nat → ℝ :=
  fun i j =>
    match i, j with
    | 0, 0 => Real.sqrt (A 0 0)
    | 0, _ + 1 => 0
    | i + 1, 0 => if i < n then A (i + 1) 0 / Real.sqrt (A 0 0) else 0
    | i + 1, j + 1 => L i j

/-- Modelled from the spec: the standard forward Cholesky factorization of
the leading n-block (§4.2), failing — instead of producing a complex or
NaN value — as soon as a pivot is not strictly positive.  In exact
arithmetic this succeeds exactly on positive-definite input, so the
bounded jitter retry loop of §4.1 is not modelled. -/
def cholOpt : Nat → (Nat → Nat → ℝ) → Option (Nat → Nat → ℝ)
  | 0, _ => some (fun _ _ => 0)
  | n + 1, A =>
    if 0 < A 0 0 then (cholOpt n (schurStep A)).map (extendChol n A) else none

/-- Forward substitution: the solution of the lower-triangular system
`L·x = b`, row by row.  Total as a function; it solves the system
whenever the diagonal of `L` is nonzero. -/
def fSolve (L : Nat → Nat → ℝ) (b : Nat → ℝ) : Nat → ℝ
  | i =>
    (b i - (Finset.range i).attach.sum fun k => L i k.1 * fSolve L b k.1) / L i i
termination_by i => i
decreasing_by exact Finset.mem_range.mp k.2

/-- Row i of a feature list, as a total Nat-indexed sequence (zero vector
beyond the list). -/
def featOfL {D : Nat} (fs : List (Fin D → ℝ)) : Nat → (Fin D → ℝ) :=
  fun i => fs.getD i (fun _ => 0)

/-- Row i of a target list, as a total Nat-indexed sequence. -/
def targOfL {P : Nat} (ts : List (Fin P → ℝ)) : Nat → (Fin P → ℝ) :=
  fun i => ts.getD i (fun _ => 0)

/-- Modelled from the spec: batch construction of a PosteriorState (§4.2,
§6 `fit`).  Input is validated first (§7): mismatched feature/target row
counts and sub-floor (in particular negative) noise variance are rejected
with a ValidationError before any computation; non-finite values cannot
arise in the exact real model.  Then `A = K(X,X) + noise_variance·I` is
factorized and `pred_mat = forward_solve(L, targets − mean(X))`. -/
def fit {D P : Nat} (lik : Likelihood D P) (fs : List (Fin D → ℝ))
    (ts : List (Fin P → ℝ)) : Except GPError (PosteriorState D P) :=
  if fs.length ≠ ts.length then
    .error (.validationError fs.length ts.length lik.noise_variance)
  else if lik.noise_variance < noiseLowerBound then
    .error (.validationError fs.length ts.length lik.noise_variance)
  else
    match cholOpt fs.length (covMat lik.kernel (featOfL fs) lik.noise_variance) with
    | none => .error .numericalInstabilityError
    | some L =>
      .ok
        { n := fs.length
          features := featOfL fs
          targets := targOfL ts
          chol_fact := L
          pred_mat := fun i c =>
            fSolve L (fun r => targOfL ts r c - lik.mean (featOfL fs r) c) i
          kernel := lik.kernel
          mean := lik.mean
          noise_variance := lik.noise_variance }

/-- The cross-covariance vector `b = K(X, x*)` of an update (§4.3 step 1). -/
def crossCov {D P : Nat} (s : PosteriorState D P) (x : Fin D → ℝ) : Nat → ℝ :=
  fun i => s.kernel (s.features i) x

/-- The solution `z` of `L·z = b` by forward substitution (§4.3 step 2). -/
def updateZ {D P : Nat} (s : PosteriorState D P) (x : Fin D → ℝ) : Nat → ℝ :=
  fSolve s.chol_fact (crossCov s x)

/-- The new diagonal radicand `k(x*,x*) + noise_variance − zᵗz` of an
incremental update (§4.3 step 3). -/
def radicand {D P : Nat} (s : PosteriorState D P) (x : Fin D → ℝ) : ℝ :=
  s.kernel x x + s.noise_variance - ∑ k ∈ Finset.range s.n, updateZ s x k ^ 2

/-- The new PosteriorState a successful incremental update returns: the
data extended by one row, the factor by the row `(zᵗ, d)` with
`d = √radicand`, `pred_mat` by `(y* − mean(x*) − zᵗ·pred_mat)/d`; the
noise variance is carried over unchanged (§4.3 steps 4–6). -/
def updState {D P : Nat} (s : PosteriorState D P) (x : Fin D → ℝ)
    (y : Fin P → ℝ) : PosteriorState D P :=
  { n := s.n + 1
    features := fun i => if i = s.n then x else s.features i
    targets := fun i => if i = s.n then y else s.targets i
    chol_fact := fun i j =>
      if i = s.n then
        if j = s.n then Real.sqrt (radicand s x)
        else if j < s.n then updateZ s x j else 0
      else if j = s.n then 0 else s.chol_fact i j
    pred_mat := fun i =>
      if i = s.n then
        fun c =>
          (y c - s.mean x c -
              ∑ k ∈ Finset.range s.n, updateZ s x k * s.pred_mat k c) /
            Real.sqrt (radicand s x)
      else s.pred_mat i
    kernel := s.kernel
    mean := s.mean
    noise_variance := s.noise_variance }

/-- Modelled from the spec: the incremental update (§4.3, §6 `update`).
It fails with a numerical-instability error when the radicand is
non-positive — rather than produce a complex or NaN value — and
otherwise returns the new PosteriorState, leaving its input untouched. -/
def update {D P : Nat} (s : PosteriorState D P) (x : Fin D → ℝ)
    (y : Fin P → ℝ) : Except GPError (PosteriorState D P) :=
  if radicand s x ≤ 0 then .error .numericalInstabilityError
  else .ok (updState s x y)

/-- Modelled from the spec: the predictive query at one point (§4.4).
With `q = L⁻¹·K(X,xq)` the mean is `mean(xq) + qᵗ·pred_mat` and the
variance `k(xq,xq) − ‖q‖²`, clipped at the non-negative floor 0. -/
def predict {D P : Nat} (s : PosteriorState D P) (xq : Fin D → ℝ) :
    (Fin P → ℝ) × ℝ :=
  (fun c => s.mean xq c +
      ∑ i ∈ Finset.range s.n,
        fSolve s.chol_fact (fun r => s.kernel (s.features r) xq) i *
          s.pred_mat i c,
    max 0 (s.kernel xq xq -
      ∑ i ∈ Finset.range s.n,
        fSolve s.chol_fact (fun r => s.kernel (s.features r) xq) i ^ 2))

/-- The predictive query over a set of M query points. -/
def predictList {D P : Nat} (s : PosteriorState D P)
    (qs : List (Fin D → ℝ)) : List ((Fin P → ℝ) × ℝ) :=
  qs.map (predict s)

/-- A sequence of incremental updates, one observation at a time. -/
def updateFold {D P : Nat} (s : PosteriorState D P)
    (obs : List ((Fin D → ℝ) × (Fin P → ℝ))) :
    Except GPError (PosteriorState D P) :=
  obs.foldlM (fun t o => update t o.1 o.2) s

/-- Batch fit of a list of (feature, target) observations. -/
def fitObs {D P : Nat} (lik : Likelihood D P)
    (obs : List ((Fin D → ℝ) × (Fin P → ℝ))) :
    Except GPError (PosteriorState D P) :=
  fit lik (obs.map Prod.fst) (obs.map Prod.snd)

/-! ### Matrix predicates over the leading n-block -/

/-- The (i,j) entry of `L·Lᵗ` taken over the leading n-block. -/
def prodEntry (n : Nat) (L : Nat → Nat → ℝ) (i j : Nat) : ℝ :=
  ∑ k ∈ Finset.range n, L i k * L j k

/-- Lower-triangular within the n-block: every entry strictly above the
diagonal vanishes. -/
def LowerTri (n : Nat) (L : Nat → Nat → ℝ) : Prop :=
  ∀ i j, i < j → j < n → L i j = 0

/-- Strictly positive diagonal on the n-block. -/
def PosDiag (n : Nat) (L : Nat → Nat → ℝ) : Prop :=
  ∀ i, i < n → 0 < L i i

/-- Symmetric within the n-block. -/
def SymmN (n : Nat) (A : Nat → Nat → ℝ) : Prop :=
  ∀ i j, i < n → j < n → A i j = A j i

/-- Positive semidefinite over the n-block. -/
def PosSemidefN (n : Nat) (A : Nat → Nat → ℝ) : Prop :=
  SymmN n A ∧
    ∀ x : Nat → ℝ,
      0 ≤ ∑ i ∈ Finset.range n, ∑ j ∈ Finset.range n, x i * A i j * x j

/-- Positive definite over the n-block: the quadratic form is positive at
every vector with a nonzero coordinate below n. -/
def PosDefN (n : Nat) (A : Nat → Nat → ℝ) : Prop :=
  SymmN n A ∧
    ∀ x : Nat → ℝ, (∃ i, i < n ∧ x i ≠ 0) →
      0 < ∑ i ∈ Finset.range n, ∑ j ∈ Finset.range n, x i * A i j * x j

/-- The internal-consistency invariant of a produced PosteriorState: the
stored factor is lower-triangular with strictly positive diagonal,
refactors the regularized covariance of the stored data, and the stored
`pred_mat` solves `L·pred_mat = targets − mean(features)`. -/
structure StateInv {D P : Nat} (s : PosteriorState D P) : Prop where
  tri : LowerTri s.n s.chol_fact
  diag : PosDiag s.n s.chol_fact
  fact : ∀ i j, i < s.n → j < s.n →
    prodEntry s.n s.chol_fact i j =
      s.kernel (s.features i) (s.features j) +
        (if i = j then s.noise_variance else 0)
  resid : ∀ i c, i < s.n →
    ∑ k ∈ Finset.range s.n, s.chol_fact i k * s.pred_mat k c =
      s.targets i c - s.mean (s.features i) c

/-! ### Sum helpers -/

theorem sum_trunc (f : Nat → ℝ) (m n : Nat) (h : m ≤ n)
    (hz : ∀ k, m ≤ k → k < n → f k = 0) :
    ∑ k ∈ Finset.range n, f k = ∑ k ∈ Finset.range m, f k := by
  refine (Finset.sum_subset (Finset.range_subset.mpr h) ?_).symm
  intro k hk hk'
  exact hz k (by simpa using hk') (by simpa using hk)

/-! ### Forward substitution -/

theorem fSolve_eq (L : Nat → Nat → ℝ) (b : Nat → ℝ) (i : Nat) :
    fSolve L b i =
      (b i - ∑ k ∈ Finset.range i, L i k * fSolve L b k) / L i i := by
  rw [fSolve]
  congr 1
  rw [← Finset.sum_attach (Finset.range i) (fun k => L i k * fSolve L b k)]

/-- Forward substitution solves the system on every row i < n with a
nonzero diagonal entry, given triangularity. -/
theorem fSolve_solves (n : Nat) (L : Nat → Nat → ℝ) (b : Nat → ℝ)
    (htri : LowerTri n L) (hd : ∀ i, i < n → L i i ≠ 0)
    (i : Nat) (hi : i < n) :
    ∑ k ∈ Finset.range n, L i k * fSolve L b k = b i := by
  have htr : ∑ k ∈ Finset.range n, L i k * fSolve L b k =
      ∑ k ∈ Finset.range (i + 1), L i k * fSolve L b k := by
    refine sum_trunc _ (i + 1) n hi ?_
    intro k hk hk'
    rw [htri i k (by omega) hk', zero_mul]
  have hne := hd i hi
  rw [htr, Finset.sum_range_succ, fSolve_eq L b i]
  field_simp

/-- The lower-triangular system has at most one solution below row n. -/
theorem fSolve_unique (n : Nat) (L : Nat → Nat → ℝ) (b : Nat → ℝ)
    (htri : LowerTri n L) (hd : ∀ i, i < n → L i i ≠ 0)
    (x y : Nat → ℝ)
    (hx : ∀ i, i < n → ∑ k ∈ Finset.range n, L i k * x k = b i)
    (hy : ∀ i, i < n → ∑ k ∈ Finset.range n, L i k * y k = b i) :
    ∀ i, i < n → x i = y i := by
  intro i
  induction i using Nat.strong_induction_on with
  | _ i ih =>
    intro hi
    have hxi := hx i hi
    have hyi := hy i hi
    have htr : ∀ z : Nat → ℝ,
        ∑ k ∈ Finset.range n, L i k * z k =
          ∑ k ∈ Finset.range i, L i k * z k + L i i * z i := by
      intro z
      rw [sum_trunc _ (i + 1) n hi
        (fun k hk hk' => by rw [htri i k (by omega) hk', zero_mul]),
        Finset.sum_range_succ]
    rw [htr] at hxi hyi
    have hsum : ∑ k ∈ Finset.range i, L i k * x k =
        ∑ k ∈ Finset.range i, L i k * y k := by
      refine Finset.sum_congr rfl ?_
      intro k hk
      have hk' : k < i := Finset.mem_range.mp hk
      rw [ih k hk' (lt_trans hk' hi)]
    have : L i i * x i = L i i * y i := by linarith [hxi, hyi, hsum]
    exact mul_left_cancel₀ (hd i hi) this

/-! ### Soundness of the forward factorization -/

theorem cholOpt_zero_eq (A : Nat → Nat → ℝ) :
    cholOpt 0 A = some (fun _ _ => 0) := rfl

theorem cholOpt_succ_eq_some {n : Nat} {A L : Nat → Nat → ℝ} :
    cholOpt (n + 1) A = some L ↔
      0 < A 0 0 ∧
        ∃ M, cholOpt n (schurStep A) = some M ∧ extendChol n A M = L := by
  rw [cholOpt]
  by_cases h : 0 < A 0 0
  · simp only [h, if_true, eq_self_iff_true, Option.map_eq_some', true_and]
  · simp only [if_neg h, h, false_and, iff_false]
    intro hc
    exact Option.noConfusion hc

theorem extendChol_zz (n : Nat) (A M : Nat → Nat → ℝ) :
    extendChol n A M 0 0 = Real.sqrt (A 0 0) := rfl

theorem extendChol_ztop (n : Nat) (A M : Nat → Nat → ℝ) (j : Nat) :
    extendChol n A M 0 (j + 1) = 0 := rfl

theorem extendChol_col (n : Nat) (A M : Nat → Nat → ℝ) (i : Nat) :
    extendChol n A M (i + 1) 0 =
      if i < n then A (i + 1) 0 / Real.sqrt (A 0 0) else 0 := rfl

theorem extendChol_in (n : Nat) (A M : Nat → Nat → ℝ) (i j : Nat) :
    extendChol n A M (i + 1) (j + 1) = M i j := rfl

theorem schurStep_symm {n : Nat} {A : Nat → Nat → ℝ} (hA : SymmN (n + 1) A) :
    SymmN n (schurStep A) := by
  intro i j hi hj
  unfold schurStep
  rw [hA (i + 1) (j + 1) (by omega) (by omega)]
  ring

/-- Everything the success of the forward factorization guarantees: the
factor vanishes outside the n-block and above the diagonal, has strictly
positive diagonal, and — when the input block is symmetric — refactors
it. -/
theorem cholOpt_sound :
    ∀ (n : Nat) (A L : Nat → Nat → ℝ), cholOpt n A = some L →
      (∀ i j, n ≤ i ∨ n ≤ j → L i j = 0) ∧
        (∀ i j, i < j → L i j = 0) ∧ PosDiag n L ∧
          (SymmN n A → ∀ i j, i < n → j < n → prodEntry n L i j = A i j) := by
  intro n
  induction n with
  | zero =>
    intro A L hL
    rw [cholOpt_zero_eq] at hL
    have hL' : L = fun _ _ => 0 := (Option.some.inj hL).symm
    subst hL'
    refine ⟨fun i j _ => rfl, fun i j _ => rfl, fun i hi => absurd hi (by omega),
      fun _ i j hi _ => absurd hi (by omega)⟩
  | succ n ih =>
    intro A L hL
    obtain ⟨h00, M, hM, hext⟩ := cholOpt_succ_eq_some.mp hL
    obtain ⟨ihz, ihtri, ihdiag, ihfact⟩ := ih (schurStep A) M hM
    subst hext
    have hs0 : (0 : ℝ) < Real.sqrt (A 0 0) := Real.sqrt_pos.mpr h00
    have hss : Real.sqrt (A 0 0) * Real.sqrt (A 0 0) = A 0 0 :=
      Real.mul_self_sqrt h00.le
    have hsne : Real.sqrt (A 0 0) ≠ 0 := ne_of_gt hs0
    refine ⟨?_, ?_, ?_, ?_⟩
    · -- zero outside the (n+1)-block
      intro i j hij
      match i, j with
      | 0, 0 => omega
      | 0, j + 1 => exact extendChol_ztop n A M j
      | i + 1, 0 =>
        rw [extendChol_col, if_neg (by omega)]
      | i + 1, j + 1 =>
        rw [extendChol_in]
        exact ihz i j (by omega)
    · -- lower-triangular everywhere
      intro i j hij
      match i, j with
      | 0, j + 1 => exact extendChol_ztop n A M j
      | i + 1, j + 1 =>
        rw [extendChol_in]
        exact ihtri i j (by omega)
    · -- strictly positive diagonal
      intro i hi
      match i with
      | 0 => exact hs0
      | i + 1 =>
        rw [extendChol_in]
        exact ihdiag i (by omega)
    · -- refactorization
      intro hsym i j hi hj
      have hsymS : SymmN n (schurStep A) := schurStep_symm hsym
      match i, j with
      | 0, 0 =>
        unfold prodEntry
        rw [Finset.sum_range_succ']
        simp only [extendChol_ztop, extendChol_zz, zero_mul,
          Finset.sum_const_zero, zero_add]
        exact hss
      | i + 1, 0 =>
        unfold prodEntry
        rw [Finset.sum_range_succ']
        simp only [extendChol_ztop, extendChol_in, mul_zero,
          Finset.sum_const_zero, zero_add, extendChol_col, extendChol_zz]
        rw [if_pos (by omega : i < n), div_mul_cancel₀ _ hsne]
      | 0, j + 1 =>
        unfold prodEntry
        rw [Finset.sum_range_succ']
        simp only [extendChol_ztop, extendChol_in, zero_mul,
          Finset.sum_const_zero, zero_add, extendChol_col, extendChol_zz]
        rw [if_pos (by omega : j < n), mul_comm, div_mul_cancel₀ _ hsne]
        exact (hsym (j + 1) 0 hj (by omega)).symm ▸ rfl
      | i + 1, j + 1 =>
        unfold prodEntry
        rw [Finset.sum_range_succ']
        simp only [extendChol_in, extendChol_col]
        rw [if_pos (by omega : i < n), if_pos (by omega : j < n)]
        have hfac : ∑ k ∈ Finset.range n, M i k * M j k = schurStep A i j :=
          ihfact hsymS i j (by omega) (by omega)
        rw [hfac]
        unfold schurStep
        rw [div_mul_div_comm, hss]
        ring

/-! ### Positive definiteness -/

/-- Splitting a quadratic form over the (n+1)-block at its first
row/column. -/
theorem quad_split (n : Nat) (A : Nat → Nat → ℝ) (y : Nat → ℝ) :
    ∑ i ∈ Finset.range (n + 1), ∑ j ∈ Finset.range (n + 1), y i * A i j * y j =
      (∑ i ∈ Finset.range n, ∑ j ∈ Finset.range n,
          y (i + 1) * A (i + 1) (j + 1) * y (j + 1)) +
        (∑ j ∈ Finset.range n, y 0 * A 0 (j + 1) * y (j + 1)) +
        (∑ i ∈ Finset.range n, y (i + 1) * A (i + 1) 0 * y 0) +
        y 0 * A 0 0 * y 0 := by
  have h1 : ∀ i, ∑ j ∈ Finset.range (n + 1), y i * A i j * y j =
      (∑ j ∈ Finset.range n, y i * A i (j + 1) * y (j + 1)) + y i * A i 0 * y 0 :=
    fun i => Finset.sum_range_succ' _ n
  rw [Finset.sum_range_succ' (fun i => ∑ j ∈ Finset.range (n + 1), y i * A i j * y j) n,
    h1 0, Finset.sum_congr rfl (fun i _ => h1 (i + 1)), Finset.sum_add_distrib]
  ring

/-- The (0,0) entry of a positive-definite block is positive. -/
theorem posDefN_zero_pos {n : Nat} {A : Nat → Nat → ℝ}
    (hA : PosDefN (n + 1) A) : 0 < A 0 0 := by
  have h := hA.2 (fun k => if k = 0 then (1 : ℝ) else 0)
    ⟨0, by omega, by norm_num⟩
  rw [quad_split] at h
  simpa using h

/-- The Schur complement of the (0,0) pivot of a positive-definite block
is positive definite. -/
theorem schurStep_posDef {n : Nat} {A : Nat → Nat → ℝ}
    (hA : PosDefN (n + 1) A) : PosDefN n (schurStep A) := by
  obtain ⟨hsym, hq⟩ := hA
  have h00 : 0 < A 0 0 := posDefN_zero_pos ⟨hsym, hq⟩
  have h00' : A 0 0 ≠ 0 := ne_of_gt h00
  refine ⟨schurStep_symm hsym, ?_⟩
  rintro x ⟨i0, hi0, hx0⟩
  set s : ℝ := ∑ i ∈ Finset.range n, x i * A (i + 1) 0 with hs
  set c : ℝ := -s / A 0 0 with hc
  set y : Nat → ℝ := fun k => Nat.casesOn k c (fun k' => x k') with hy
  have hy0 : y 0 = c := rfl
  have hysucc : ∀ k, y (k + 1) = x k := fun k => rfl
  have hpos := hq y ⟨i0 + 1, by omega, by rw [hysucc]; exact hx0⟩
  rw [quad_split] at hpos
  simp only [hy0, hysucc] at hpos
  have hcross1 : ∑ j ∈ Finset.range n, c * A 0 (j + 1) * x j = c * s := by
    rw [hs, Finset.mul_sum]
    refine Finset.sum_congr rfl ?_
    intro j hj
    rw [hsym 0 (j + 1) (by omega) (by simpa using Nat.succ_lt_succ (Finset.mem_range.mp hj))]
    ring
  have hcross2 : ∑ i ∈ Finset.range n, x i * A (i + 1) 0 * c = s * c := by
    rw [hs, Finset.sum_mul]
  rw [hcross1, hcross2] at hpos
  have hpt : ∀ i j : Nat, x i * schurStep A i j * x j =
      x i * A (i + 1) (j + 1) * x j -
        x i * A (i + 1) 0 * (x j * A (j + 1) 0) * (A 0 0)⁻¹ := by
    intro i j
    unfold schurStep
    rw [div_eq_mul_inv]
    ring
  have hexp : ∑ i ∈ Finset.range n, ∑ j ∈ Finset.range n,
      x i * schurStep A i j * x j =
        (∑ i ∈ Finset.range n, ∑ j ∈ Finset.range n,
            x i * A (i + 1) (j + 1) * x j) - s * s * (A 0 0)⁻¹ := by
    simp only [hpt, Finset.sum_sub_distrib]
    congr 1
    rw [hs, Finset.sum_mul_sum, Finset.sum_mul]
    refine Finset.sum_congr rfl fun i _ => ?_
    rw [Finset.sum_mul]
  rw [hexp]
  have hceq : c = -s / A 0 0 := hc
  have : (∑ i ∈ Finset.range n, ∑ j ∈ Finset.range n,
      x i * A (i + 1) (j + 1) * x j) + c * s + s * c + c * A 0 0 * c =
        (∑ i ∈ Finset.range n, ∑ j ∈ Finset.range n,
          x i * A (i + 1) (j + 1) * x j) - s * s * (A 0 0)⁻¹ := by
    rw [hceq]
    field_simp
    ring
  linarith [hpos, this]

/-- A leading block of a positive-definite block is positive definite. -/
theorem posDefN_mono {m n : Nat} {A : Nat → Nat → ℝ} (hmn : m ≤ n)
    (hA : PosDefN n A) : PosDefN m A := by
  obtain ⟨hsym, hq⟩ := hA
  refine ⟨fun i j hi hj => hsym i j (by omega) (by omega), ?_⟩
  rintro x ⟨i0, hi0, hx0⟩
  have hqx := hq (fun i => if i < m then x i else 0)
    ⟨i0, by omega, by simp only [if_pos hi0]; exact hx0⟩
  simp only [] at hqx
  have houter : ∑ i ∈ Finset.range n, ∑ j ∈ Finset.range n,
      (if i < m then x i else 0) * A i j * (if j < m then x j else 0) =
        ∑ i ∈ Finset.range m, ∑ j ∈ Finset.range m, x i * A i j * x j := by
    rw [sum_trunc _ m n hmn]
    · refine Finset.sum_congr rfl fun i hi => ?_
      have him : i < m := Finset.mem_range.mp hi
      rw [sum_trunc _ m n hmn]
      · refine Finset.sum_congr rfl fun j hj => ?_
        have hjm : j < m := Finset.mem_range.mp hj
        rw [if_pos him, if_pos hjm]
      · intro k hk _
        have hkm : ¬ k < m := by omega
        rw [if_neg hkm]
        ring
    · intro k hk _
      have hkm : ¬ k < m := by omega
      rw [if_neg hkm]
      simp
  rw [houter] at hqx
  exact hqx

/-- Adding a positive multiple of the identity to a positive-semidefinite
block yields a positive-definite block: validity of a Likelihood (kernel
positive semidefinite, noise variance above the positive floor) makes the
regularized covariance positive definite. -/
theorem covMat_posDef {D : Nat} {kern : (Fin D → ℝ) → (Fin D → ℝ) → ℝ}
    {f : Nat → (Fin D → ℝ)} {noise : ℝ} {n : Nat}
    (hpsd : PosSemidefN n (fun i j => kern (f i) (f j))) (hσ : 0 < noise) :
    PosDefN n (covMat kern f noise) := by
  obtain ⟨hsym, hq⟩ := hpsd
  have hsym' : ∀ i j, i < n → j < n → kern (f i) (f j) = kern (f j) (f i) :=
    hsym
  have hq' : ∀ x : Nat → ℝ,
      0 ≤ ∑ i ∈ Finset.range n, ∑ j ∈ Finset.range n,
        x i * kern (f i) (f j) * x j := hq
  constructor
  · intro i j hi hj
    unfold covMat
    rw [hsym' i j hi hj]
    by_cases hij : i = j
    · subst hij; rfl
    · rw [if_neg hij, if_neg (fun h => hij h.symm)]
  · rintro x ⟨i0, hi0, hx0⟩
    have hsplit : ∀ i j : Nat,
        x i * covMat kern f noise i j * x j =
          x i * kern (f i) (f j) * x j +
            x i * (if i = j then noise else 0) * x j := by
      intro i j
      unfold covMat
      ring
    have hdiag : ∑ i ∈ Finset.range n, ∑ j ∈ Finset.range n,
        x i * (if i = j then noise else 0) * x j =
          ∑ i ∈ Finset.range n, noise * x i ^ 2 := by
      refine Finset.sum_congr rfl fun i hi => ?_
      have hpt : ∀ j : Nat, x i * (if i = j then noise else 0) * x j =
          if i = j then noise * (x i * x j) else 0 := by
        intro j
        by_cases hij : i = j
        · rw [if_pos hij, if_pos hij]; ring
        · rw [if_neg hij, if_neg hij]; ring
      simp only [hpt]
      rw [Finset.sum_ite_eq (Finset.range n) i (fun j => noise * (x i * x j)),
        if_pos hi]
      ring
    have hsq : 0 < ∑ i ∈ Finset.range n, noise * x i ^ 2 := by
      have hterm : 0 < noise * x i0 ^ 2 :=
        mul_pos hσ (pow_two_pos_of_ne_zero hx0)
      have hnonneg : ∀ i ∈ Finset.range n, 0 ≤ noise * x i ^ 2 :=
        fun i _ => mul_nonneg hσ.le (sq_nonneg _)
      calc 0 < noise * x i0 ^ 2 := hterm
        _ ≤ ∑ i ∈ Finset.range n, noise * x i ^ 2 :=
          Finset.single_le_sum hnonneg (Finset.mem_range.mpr hi0)
    calc 0 < 0 + ∑ i ∈ Finset.range n, noise * x i ^ 2 := by linarith [hsq]
      _ ≤ (∑ i ∈ Finset.range n, ∑ j ∈ Finset.range n,
            x i * kern (f i) (f j) * x j) +
          ∑ i ∈ Finset.range n, noise * x i ^ 2 := by
          have := hq' x
          linarith [this]
      _ = ∑ i ∈ Finset.range n, ∑ j ∈ Finset.range n,
            x i * covMat kern f noise i j * x j := by
          simp only [hsplit, Finset.sum_add_distrib, hdiag]

/-- On positive-definite input the forward factorization succeeds. -/
theorem cholOpt_complete :
    ∀ (n : Nat) (A : Nat → Nat → ℝ), PosDefN n A →
      ∃ L, cholOpt n A = some L := by
  intro n
  induction n with
  | zero => exact fun A _ => ⟨_, rfl⟩
  | succ n ih =>
    intro A hA
    obtain ⟨M, hM⟩ := ih (schurStep A) (schurStep_posDef hA)
    exact ⟨extendChol n A M,
      cholOpt_succ_eq_some.mpr ⟨posDefN_zero_pos hA, M, hM, rfl⟩⟩

/-! ### Uniqueness of the factor -/

/-- Two lower-triangular factors with strictly positive diagonals of the
same n-block coincide on the block: the Cholesky factor is unique under
the positive-diagonal sign convention. -/
theorem chol_unique (n : Nat) (L M : Nat → Nat → ℝ)
    (hLt : LowerTri n L) (hMt : LowerTri n M)
    (hLd : PosDiag n L) (hMd : PosDiag n M)
    (hprod : ∀ i j, i < n → j < n → prodEntry n L i j = prodEntry n M i j) :
    ∀ j i, j < n → i < n → L i j = M i j := by
  intro j
  induction j using Nat.strong_induction_on with
  | _ j ih =>
    intro i hj hi
    have htruncL : ∀ r, r < n → prodEntry n L r j =
        (∑ k ∈ Finset.range j, L r k * L j k) + L r j * L j j := by
      intro r _
      unfold prodEntry
      rw [sum_trunc _ (j + 1) n hj
        (fun k hk hk' => by rw [hLt j k (by omega) hk']; ring),
        Finset.sum_range_succ]
    have htruncM : ∀ r, r < n → prodEntry n M r j =
        (∑ k ∈ Finset.range j, M r k * M j k) + M r j * M j j := by
      intro r _
      unfold prodEntry
      rw [sum_trunc _ (j + 1) n hj
        (fun k hk hk' => by rw [hMt j k (by omega) hk']; ring),
        Finset.sum_range_succ]
    have hdiag : L j j = M j j := by
      have hp := hprod j j hj hj
      rw [htruncL j hj, htruncM j hj] at hp
      have hsum : ∑ k ∈ Finset.range j, L j k * L j k =
          ∑ k ∈ Finset.range j, M j k * M j k := by
        refine Finset.sum_congr rfl fun k hk => ?_
        have hkj : k < j := Finset.mem_range.mp hk
        rw [ih k hkj j (by omega) hj]
      nlinarith [hLd j hj, hMd j hj, hp, hsum]
    rcases lt_trichotomy i j with hij | hij | hij
    · rw [hLt i j hij hj, hMt i j hij hj]
    · subst hij; exact hdiag
    · have hp := hprod i j hi hj
      rw [htruncL i hi, htruncM i hi] at hp
      have hsum : ∑ k ∈ Finset.range j, L i k * L j k =
          ∑ k ∈ Finset.range j, M i k * M j k := by
        refine Finset.sum_congr rfl fun k hk => ?_
        have hkj : k < j := Finset.mem_range.mp hk
        rw [ih k hkj i (by omega) hi, ih k hkj j (by omega) hj]
      have hLM : L i j * L j j = M i j * M j j := by linarith [hp, hsum]
      rw [hdiag] at hLM
      exact mul_right_cancel₀ (ne_of_gt (hMd j hj)) hLM

/-! ### The batch fit: characterization and invariant -/

theorem fit_ok_fields {D P : Nat} {lik : Likelihood D P}
    {fs : List (Fin D → ℝ)} {ts : List (Fin P → ℝ)} {s : PosteriorState D P}
    (h : fit lik fs ts = .ok s) :
    s.n = fs.length ∧ s.features = featOfL fs ∧ s.targets = targOfL ts ∧
      s.kernel = lik.kernel ∧ s.mean = lik.mean ∧
        s.noise_variance = lik.noise_variance ∧
          fs.length = ts.length ∧ noiseLowerBound ≤ lik.noise_variance ∧
            cholOpt fs.length (covMat lik.kernel (featOfL fs) lik.noise_variance) =
                some s.chol_fact ∧
              s.pred_mat = fun i c =>
                fSolve s.chol_fact
                  (fun r => targOfL ts r c - lik.mean (featOfL fs r) c) i := by
  unfold fit at h
  by_cases hlen : fs.length ≠ ts.length
  · rw [if_pos hlen] at h; exact absurd h (by simp)
  · rw [if_neg hlen] at h
    by_cases hσ : lik.noise_variance < noiseLowerBound
    · rw [if_pos hσ] at h; exact absurd h (by simp)
    · rw [if_neg hσ] at h
      rcases hch : cholOpt fs.length
          (covMat lik.kernel (featOfL fs) lik.noise_variance) with _ | L
      · rw [hch] at h; exact absurd h (by simp)
      · rw [hch] at h
        have hrec := Except.ok.inj h
        subst hrec
        refine ⟨rfl, rfl, rfl, rfl, rfl, rfl, not_not.mp hlen,
          not_lt.mp hσ, rfl, rfl⟩

theorem fit_ok_of {D P : Nat} {lik : Likelihood D P}
    {fs : List (Fin D → ℝ)} {ts : List (Fin P → ℝ)} {L : Nat → Nat → ℝ}
    (hlen : fs.length = ts.length)
    (hσ : ¬ lik.noise_variance < noiseLowerBound)
    (hchol : cholOpt fs.length (covMat lik.kernel (featOfL fs) lik.noise_variance) =
      some L) :
    fit lik fs ts =
      .ok
        { n := fs.length
          features := featOfL fs
          targets := targOfL ts
          chol_fact := L
          pred_mat := fun i c =>
            fSolve L (fun r => targOfL ts r c - lik.mean (featOfL fs r) c) i
          kernel := lik.kernel
          mean := lik.mean
          noise_variance := lik.noise_variance } := by
  unfold fit
  rw [if_neg (by simp [hlen]), if_neg hσ, hchol]

/-- A state `fit` produces satisfies the internal-consistency invariant,
provided the kernel is symmetric. -/
theorem fit_ok_inv {D P : Nat} {lik : Likelihood D P}
    {fs : List (Fin D → ℝ)} {ts : List (Fin P → ℝ)} {s : PosteriorState D P}
    (hsym : ∀ a b, lik.kernel a b = lik.kernel b a)
    (h : fit lik fs ts = .ok s) : StateInv s := by
  obtain ⟨hn, hf, ht, hk, hm, hσ, hlen, hfloor, hchol, hpred⟩ := fit_ok_fields h
  obtain ⟨hz, htri, hdiag, hfact⟩ := cholOpt_sound fs.length _ _ hchol
  have hsymA : SymmN fs.length (covMat lik.kernel (featOfL fs) lik.noise_variance) := by
    intro i j _ _
    unfold covMat
    rw [hsym (featOfL fs i) (featOfL fs j)]
    by_cases hij : i = j
    · subst hij; rfl
    · rw [if_neg hij, if_neg (fun hji => hij hji.symm)]
  have hdne : ∀ i, i < s.n → s.chol_fact i i ≠ 0 := by
    intro i hi
    exact ne_of_gt (hdiag i (by omega))
  constructor
  · intro i j hij _
    exact htri i j hij
  · intro i hi
    rw [hn] at hi
    exact hdiag i hi
  · intro i j hi hj
    rw [hn] at hi hj
    have := hfact hsymA i j hi hj
    unfold prodEntry at this ⊢
    rw [hn, this]
    unfold covMat
    rw [hf, hk, hσ]
  · intro i c hi
    rw [hn] at hi ⊢
    have hsolve := fSolve_solves fs.length s.chol_fact
      (fun r => targOfL ts r c - lik.mean (featOfL fs r) c)
      (fun a b hab hbn => htri a b hab)
      (fun r hr => ne_of_gt (hdiag r hr)) i hi
    rw [hpred, ht, hm, hf]
    simpa using hsolve

/-! ### The incremental update: characterization and invariant -/

theorem update_error_iff {D P : Nat} {s : PosteriorState D P}
    {x : Fin D → ℝ} {y : Fin P → ℝ} :
    update s x y = .error GPError.numericalInstabilityError ↔
      radicand s x ≤ 0 := by
  unfold update
  by_cases h : radicand s x ≤ 0
  · simp [h]
  · simp [h]

theorem update_ok_iff {D P : Nat} {s s' : PosteriorState D P}
    {x : Fin D → ℝ} {y : Fin P → ℝ} :
    update s x y = .ok s' ↔ 0 < radicand s x ∧ s' = updState s x y := by
  unfold update
  by_cases h : radicand s x ≤ 0
  · rw [if_pos h]
    constructor
    · intro hok
      exact absurd hok (by simp)
    · rintro ⟨hpos, _⟩
      exact absurd h (not_le.mpr hpos)
  · rw [if_neg h]
    constructor
    · intro hok
      exact ⟨lt_of_not_le h, (Except.ok.inj hok).symm⟩
    · rintro ⟨_, rfl⟩
      rfl

theorem updState_n {D P : Nat} (s : PosteriorState D P) (x : Fin D → ℝ)
    (y : Fin P → ℝ) : (updState s x y).n = s.n + 1 := rfl

theorem updState_features_lt {D P : Nat} (s : PosteriorState D P)
    (x : Fin D → ℝ) (y : Fin P → ℝ) {i : Nat} (hi : i < s.n) :
    (updState s x y).features i = s.features i := by
  have hne : i ≠ s.n := by omega
  simp [updState, hne]

theorem updState_features_last {D P : Nat} (s : PosteriorState D P)
    (x : Fin D → ℝ) (y : Fin P → ℝ) : (updState s x y).features s.n = x := by
  simp [updState]

theorem updState_targets_lt {D P : Nat} (s : PosteriorState D P)
    (x : Fin D → ℝ) (y : Fin P → ℝ) {i : Nat} (hi : i < s.n) :
    (updState s x y).targets i = s.targets i := by
  have hne : i ≠ s.n := by omega
  simp [updState, hne]

theorem updState_targets_last {D P : Nat} (s : PosteriorState D P)
    (x : Fin D → ℝ) (y : Fin P → ℝ) : (updState s x y).targets s.n = y := by
  simp [updState]

theorem updState_chol_block {D P : Nat} (s : PosteriorState D P)
    (x : Fin D → ℝ) (y : Fin P → ℝ) {i j : Nat} (hi : i < s.n) (hj : j < s.n) :
    (updState s x y).chol_fact i j = s.chol_fact i j := by
  have hnei : i ≠ s.n := by omega
  have hnej : j ≠ s.n := by omega
  simp [updState, hnei, hnej]

theorem updState_chol_row {D P : Nat} (s : PosteriorState D P)
    (x : Fin D → ℝ) (y : Fin P → ℝ) {j : Nat} (hj : j < s.n) :
    (updState s x y).chol_fact s.n j = updateZ s x j := by
  have hnej : j ≠ s.n := by omega
  simp [updState, hnej, hj]

theorem updState_chol_corner {D P : Nat} (s : PosteriorState D P)
    (x : Fin D → ℝ) (y : Fin P → ℝ) :
    (updState s x y).chol_fact s.n s.n = Real.sqrt (radicand s x) := by
  simp [updState]

theorem updState_chol_newcol {D P : Nat} (s : PosteriorState D P)
    (x : Fin D → ℝ) (y : Fin P → ℝ) {i : Nat} (hi : i < s.n) :
    (updState s x y).chol_fact i s.n = 0 := by
  have hnei : i ≠ s.n := by omega
  simp [updState, hnei]

theorem updState_pred_lt {D P : Nat} (s : PosteriorState D P)
    (x : Fin D → ℝ) (y : Fin P → ℝ) {i : Nat} (hi : i < s.n) :
    (updState s x y).pred_mat i = s.pred_mat i := by
  have hne : i ≠ s.n := by omega
  simp [updState, hne]

theorem updState_pred_last {D P : Nat} (s : PosteriorState D P)
    (x : Fin D → ℝ) (y : Fin P → ℝ) :
    (updState s x y).pred_mat s.n = fun c =>
      (y c - s.mean x c -
          ∑ k ∈ Finset.range s.n, updateZ s x k * s.pred_mat k c) /
        Real.sqrt (radicand s x) := by
  simp [updState]

theorem updState_noise {D P : Nat} (s : PosteriorState D P) (x : Fin D → ℝ)
    (y : Fin P → ℝ) : (updState s x y).noise_variance = s.noise_variance := rfl

theorem updState_kernel {D P : Nat} (s : PosteriorState D P) (x : Fin D → ℝ)
    (y : Fin P → ℝ) : (updState s x y).kernel = s.kernel := rfl

theorem updState_mean {D P : Nat} (s : PosteriorState D P) (x : Fin D → ℝ)
    (y : Fin P → ℝ) : (updState s x y).mean = s.mean := rfl

/-- A successful update preserves the internal-consistency invariant,
provided the stored kernel is symmetric. -/
theorem updState_inv {D P : Nat} {s : PosteriorState D P} {x : Fin D → ℝ}
    {y : Fin P → ℝ} (hsym : ∀ a b, s.kernel a b = s.kernel b a)
    (hinv : StateInv s) (hr : 0 < radicand s x) :
    StateInv (updState s x y) := by
  have hd0 : (0 : ℝ) < Real.sqrt (radicand s x) := Real.sqrt_pos.mpr hr
  have hdd : Real.sqrt (radicand s x) * Real.sqrt (radicand s x) =
      radicand s x := Real.mul_self_sqrt hr.le
  have hdne : Real.sqrt (radicand s x) ≠ 0 := ne_of_gt hd0
  have hchne : ∀ i, i < s.n → s.chol_fact i i ≠ 0 :=
    fun i hi => ne_of_gt (hinv.diag i hi)
  have hzsolve : ∀ j, j < s.n →
      ∑ k ∈ Finset.range s.n, s.chol_fact j k * updateZ s x k =
        s.kernel (s.features j) x :=
    fun j hj => fSolve_solves s.n s.chol_fact (crossCov s x) hinv.tri hchne j hj
  constructor
  · -- lower-triangular on the (n+1)-block
    intro i j hij hj
    rw [updState_n] at hj
    rcases Nat.lt_succ_iff_lt_or_eq.mp hj with hj' | hj'
    · rw [updState_chol_block s x y (show i < s.n by omega) hj']
      exact hinv.tri i j hij hj'
    · subst hj'
      exact updState_chol_newcol s x y (show i < s.n by omega)
  · -- positive diagonal
    intro i hi
    rw [updState_n] at hi
    rcases Nat.lt_succ_iff_lt_or_eq.mp hi with hi' | hi'
    · rw [updState_chol_block s x y hi' hi']
      exact hinv.diag i hi'
    · subst hi'
      rw [updState_chol_corner]
      exact hd0
  · -- refactorization on the (n+1)-block
    intro i j hi hj
    rw [updState_n] at hi hj
    unfold prodEntry
    rw [updState_n, Finset.sum_range_succ]
    rcases Nat.lt_succ_iff_lt_or_eq.mp hi with hi' | hi' <;>
      rcases Nat.lt_succ_iff_lt_or_eq.mp hj with hj' | hj'
    · -- both in the old block
      rw [updState_chol_newcol s x y hi', updState_chol_newcol s x y hj']
      have hblock : ∑ k ∈ Finset.range s.n,
          (updState s x y).chol_fact i k * (updState s x y).chol_fact j k =
            ∑ k ∈ Finset.range s.n, s.chol_fact i k * s.chol_fact j k := by
        refine Finset.sum_congr rfl fun k hk => ?_
        have hkn : k < s.n := Finset.mem_range.mp hk
        rw [updState_chol_block s x y hi' hkn, updState_chol_block s x y hj' hkn]
      rw [hblock]
      have := hinv.fact i j hi' hj'
      unfold prodEntry at this
      rw [this, updState_features_lt s x y hi', updState_features_lt s x y hj',
        updState_kernel, updState_noise]
      ring
    · -- i old, j the new row
      subst hj'
      rw [updState_chol_newcol s x y hi', updState_chol_corner]
      have hblock : ∑ k ∈ Finset.range s.n,
          (updState s x y).chol_fact i k * (updState s x y).chol_fact s.n k =
            ∑ k ∈ Finset.range s.n, s.chol_fact i k * updateZ s x k := by
        refine Finset.sum_congr rfl fun k hk => ?_
        have hkn : k < s.n := Finset.mem_range.mp hk
        rw [updState_chol_block s x y hi' hkn, updState_chol_row s x y hkn]
      rw [hblock, hzsolve i hi', updState_features_lt s x y hi',
        updState_features_last, updState_kernel, updState_noise,
        if_neg (by omega : ¬ i = s.n)]
      ring
    · -- i the new row, j old
      subst hi'
      rw [updState_chol_newcol s x y hj', updState_chol_corner]
      have hblock : ∑ k ∈ Finset.range s.n,
          (updState s x y).chol_fact s.n k * (updState s x y).chol_fact j k =
            ∑ k ∈ Finset.range s.n, s.chol_fact j k * updateZ s x k := by
        refine Finset.sum_congr rfl fun k hk => ?_
        have hkn : k < s.n := Finset.mem_range.mp hk
        rw [updState_chol_block s x y hj' hkn, updState_chol_row s x y hkn]
        ring
      rw [hblock, hzsolve j hj', updState_features_lt s x y hj',
        updState_features_last, updState_kernel, updState_noise,
        if_neg (by omega : ¬ s.n = j), hsym x (s.features j)]
      ring
    · -- the new corner
      subst hi'; subst hj'
      rw [updState_chol_corner]
      have hblock : ∑ k ∈ Finset.range s.n,
          (updState s x y).chol_fact s.n k * (updState s x y).chol_fact s.n k =
            ∑ k ∈ Finset.range s.n, updateZ s x k ^ 2 := by
        refine Finset.sum_congr rfl fun k hk => ?_
        have hkn : k < s.n := Finset.mem_range.mp hk
        rw [updState_chol_row s x y hkn]
        ring
      rw [hblock, hdd, updState_features_last, updState_kernel, updState_noise,
        if_pos rfl]
      unfold radicand
      ring
  · -- the extended forward-solve residual
    intro i c hi
    rw [updState_n] at hi
    rw [updState_n, Finset.sum_range_succ]
    rcases Nat.lt_succ_iff_lt_or_eq.mp hi with hi' | hi'
    · rw [updState_chol_newcol s x y hi']
      have hblock : ∑ k ∈ Finset.range s.n,
          (updState s x y).chol_fact i k * (updState s x y).pred_mat k c =
            ∑ k ∈ Finset.range s.n, s.chol_fact i k * s.pred_mat k c := by
        refine Finset.sum_congr rfl fun k hk => ?_
        have hkn : k < s.n := Finset.mem_range.mp hk
        rw [updState_chol_block s x y hi' hkn, updState_pred_lt s x y hkn]
      rw [hblock, hinv.resid i c hi', updState_targets_lt s x y hi',
        updState_features_lt s x y hi', updState_mean]
      ring
    · subst hi'
      rw [updState_chol_corner, updState_pred_last, updState_targets_last,
        updState_features_last, updState_mean]
      have hblock : ∑ k ∈ Finset.range s.n,
          (updState s x y).chol_fact s.n k * (updState s x y).pred_mat k c =
            ∑ k ∈ Finset.range s.n, updateZ s x k * s.pred_mat k c := by
        refine Finset.sum_congr rfl fun k hk => ?_
        have hkn : k < s.n := Finset.mem_range.mp hk
        rw [updState_chol_row s x y hkn, updState_pred_lt s x y hkn]
      rw [hblock]
      field_simp

/-! ### Conformance of a state to an observation list -/

theorem posDefN_congr {n : Nat} {A B : Nat → Nat → ℝ}
    (hAB : ∀ i j, i < n → j < n → A i j = B i j) (hA : PosDefN n A) :
    PosDefN n B := by
  obtain ⟨hs, hq⟩ := hA
  constructor
  · intro i j hi hj
    rw [← hAB i j hi hj, ← hAB j i hj hi]
    exact hs i j hi hj
  · intro x hx
    have h := hq x hx
    have hsum : ∑ i ∈ Finset.range n, ∑ j ∈ Finset.range n,
        x i * A i j * x j =
          ∑ i ∈ Finset.range n, ∑ j ∈ Finset.range n, x i * B i j * x j := by
      refine Finset.sum_congr rfl fun i hi => Finset.sum_congr rfl fun j hj => ?_
      rw [hAB i j (Finset.mem_range.mp hi) (Finset.mem_range.mp hj)]
    rw [hsum] at h
    exact h

/-- Feature row i of an observation list. -/
def obsFeat {D P : Nat} (obs : List ((Fin D → ℝ) × (Fin P → ℝ))) :
    Nat → (Fin D → ℝ) :=
  featOfL (obs.map Prod.fst)

/-- Target row i of an observation list. -/
def obsTarg {D P : Nat} (obs : List ((Fin D → ℝ) × (Fin P → ℝ))) :
    Nat → (Fin P → ℝ) :=
  targOfL (obs.map Prod.snd)

/-- The regularized covariance of an observation list's features. -/
def covOf {D P : Nat} (lik : Likelihood D P)
    (obs : List ((Fin D → ℝ) × (Fin P → ℝ))) : Nat → Nat → ℝ :=
  covMat lik.kernel (obsFeat obs) lik.noise_variance

theorem obsFeat_append_lt {D P : Nat}
    (obs suf : List ((Fin D → ℝ) × (Fin P → ℝ))) {i : Nat}
    (hi : i < obs.length) : obsFeat (obs ++ suf) i = obsFeat obs i := by
  unfold obsFeat featOfL
  rw [List.map_append]
  exact List.getD_append _ _ _ _ (by simpa using hi)

theorem obsTarg_append_lt {D P : Nat}
    (obs suf : List ((Fin D → ℝ) × (Fin P → ℝ))) {i : Nat}
    (hi : i < obs.length) : obsTarg (obs ++ suf) i = obsTarg obs i := by
  unfold obsTarg targOfL
  rw [List.map_append]
  exact List.getD_append _ _ _ _ (by simpa using hi)

theorem obsFeat_append_at {D P : Nat}
    (obs suf : List ((Fin D → ℝ) × (Fin P → ℝ)))
    (o : (Fin D → ℝ) × (Fin P → ℝ)) :
    obsFeat (obs ++ o :: suf) obs.length = o.1 := by
  unfold obsFeat featOfL
  rw [List.map_append, List.getD_append_right _ _ _ _ (by simp)]
  simp

theorem obsTarg_append_at {D P : Nat}
    (obs suf : List ((Fin D → ℝ) × (Fin P → ℝ)))
    (o : (Fin D → ℝ) × (Fin P → ℝ)) :
    obsTarg (obs ++ o :: suf) obs.length = o.2 := by
  unfold obsTarg targOfL
  rw [List.map_append, List.getD_append_right _ _ _ _ (by simp)]
  simp

/-- A PosteriorState conforms to an observation list when its size,
copied likelihood fields and stored data match the list and it satisfies
the internal-consistency invariant. -/
def Conforms {D P : Nat} (lik : Likelihood D P)
    (obs : List ((Fin D → ℝ) × (Fin P → ℝ))) (s : PosteriorState D P) :
    Prop :=
  s.n = obs.length ∧ s.kernel = lik.kernel ∧ s.mean = lik.mean ∧
    s.noise_variance = lik.noise_variance ∧
      (∀ i, i < obs.length → s.features i = obsFeat obs i) ∧
        (∀ i, i < obs.length → s.targets i = obsTarg obs i) ∧ StateInv s

theorem fitObs_ok_conforms {D P : Nat} {lik : Likelihood D P}
    {obs : List ((Fin D → ℝ) × (Fin P → ℝ))} {s : PosteriorState D P}
    (hsym : ∀ a b, lik.kernel a b = lik.kernel b a)
    (h : fitObs lik obs = .ok s) : Conforms lik obs s := by
  have hinv : StateInv s := fit_ok_inv hsym h
  obtain ⟨hn, hf, ht, hk, hm, hσ, _, _, _, _⟩ := fit_ok_fields h
  refine ⟨by rw [hn]; simp, hk, hm, hσ, ?_, ?_, hinv⟩
  · intro i _
    rw [hf]; rfl
  · intro i _
    rw [ht]; rfl

/-- One incremental step from a conforming state: when the extended
covariance block is positive definite, the update succeeds and the new
state conforms to the extended observation list.  The radicand is shown
positive by identifying it with the square of the (n,n) entry of the
batch factor of the extended block, via uniqueness of the factor and of
the forward solve. -/
theorem step_conforms {D P : Nat} {lik : Likelihood D P}
    {obs : List ((Fin D → ℝ) × (Fin P → ℝ))} {s : PosteriorState D P}
    {o : (Fin D → ℝ) × (Fin P → ℝ)}
    (hsym : ∀ a b, lik.kernel a b = lik.kernel b a)
    (hc : Conforms lik obs s)
    (hpd : PosDefN (obs.length + 1) (covOf lik (obs ++ [o]))) :
    ∃ s', update s o.1 o.2 = .ok s' ∧ Conforms lik (obs ++ [o]) s' := by
  obtain ⟨hn, hk, hm, hσ, hfeat, htarg, hinv⟩ := hc
  obtain ⟨Λ, hΛ⟩ := cholOpt_complete (obs.length + 1) (covOf lik (obs ++ [o])) hpd
  obtain ⟨hΛz, hΛtri, hΛdiag, hΛfact⟩ := cholOpt_sound (obs.length + 1) _ _ hΛ
  have hfactΛ := hΛfact hpd.1
  have hdne : ∀ i, i < s.n → s.chol_fact i i ≠ 0 :=
    fun i hi => ne_of_gt (hinv.diag i hi)
  -- entries of the extended covariance block
  have hAblock : ∀ i j, i < obs.length → j < obs.length →
      covOf lik (obs ++ [o]) i j =
        s.kernel (s.features i) (s.features j) +
          (if i = j then s.noise_variance else 0) := by
    intro i j hi hj
    unfold covOf covMat
    rw [obsFeat_append_lt obs [o] hi, obsFeat_append_lt obs [o] hj,
      hfeat i hi, hfeat j hj, hk, hσ]
  have hArow : ∀ j, j < obs.length →
      covOf lik (obs ++ [o]) j obs.length = crossCov s o.1 j := by
    intro j hj
    unfold covOf covMat crossCov
    rw [obsFeat_append_lt obs [o] hj, hfeat j hj,
      show obs ++ [o] = obs ++ o :: [] from rfl, obsFeat_append_at,
      if_neg (by omega : ¬ j = obs.length), hk]
    ring
  have hAcorner : covOf lik (obs ++ [o]) obs.length obs.length =
      s.kernel o.1 o.1 + s.noise_variance := by
    unfold covOf covMat
    rw [show obs ++ [o] = obs ++ o :: [] from rfl, obsFeat_append_at,
      if_pos rfl, hk, hσ]
  -- Λ agrees with the stored factor on the old block
  have hprodΛ : ∀ i j, i < obs.length → j < obs.length →
      prodEntry obs.length Λ i j = covOf lik (obs ++ [o]) i j := by
    intro i j hi hj
    have h := hfactΛ i j (by omega) (by omega)
    unfold prodEntry at h ⊢
    rw [Finset.sum_range_succ, hΛtri i obs.length hi, zero_mul,
      add_zero] at h
    exact h
  have hLeq : ∀ j i, j < obs.length → i < obs.length →
      s.chol_fact i j = Λ i j := by
    refine chol_unique obs.length s.chol_fact Λ ?_ ?_ ?_ ?_ ?_
    · intro i j hij hj
      exact hinv.tri i j hij (by omega)
    · intro i j hij _
      exact hΛtri i j hij
    · intro i hi
      exact hinv.diag i (by omega)
    · intro i hi
      exact hΛdiag i (by omega)
    · intro i j hi hj
      rw [hprodΛ i j hi hj, hAblock i j hi hj]
      have h := hinv.fact i j (by omega) (by omega)
      unfold prodEntry at h ⊢
      rw [hn] at h
      exact h
  -- the forward solve z coincides with row n of Λ below n
  have hz : ∀ k, k < obs.length → updateZ s o.1 k = Λ obs.length k := by
    refine fSolve_unique obs.length s.chol_fact (crossCov s o.1)
      (fun i j hij hj => hinv.tri i j hij (by omega))
      (fun i hi => hdne i (by omega)) _ _ ?_ ?_
    · intro i hi
      have := fSolve_solves s.n s.chol_fact (crossCov s o.1) hinv.tri hdne i
        (by omega)
      unfold updateZ
      rw [hn] at this
      exact this
    · intro j hj
      have h := hfactΛ j obs.length (by omega) (by omega)
      rw [show prodEntry (obs.length + 1) Λ j obs.length =
          (∑ k ∈ Finset.range obs.length, Λ j k * Λ obs.length k) +
            Λ j obs.length * Λ obs.length obs.length from
          by unfold prodEntry; rw [Finset.sum_range_succ],
        hΛtri j obs.length hj, zero_mul, add_zero] at h
      rw [← hArow j hj, ← h]
      refine Finset.sum_congr rfl fun k hk => ?_
      rw [hLeq k j (Finset.mem_range.mp hk) hj]
  -- the radicand is the square of the (n,n) entry of Λ
  have hrad : radicand s o.1 = Λ obs.length obs.length ^ 2 := by
    unfold radicand
    have hcorner := hfactΛ obs.length obs.length (by omega) (by omega)
    rw [show prodEntry (obs.length + 1) Λ obs.length obs.length =
        (∑ k ∈ Finset.range obs.length, Λ obs.length k * Λ obs.length k) +
          Λ obs.length obs.length * Λ obs.length obs.length from
        by unfold prodEntry; rw [Finset.sum_range_succ], hAcorner] at hcorner
    have hzz : ∑ k ∈ Finset.range s.n, updateZ s o.1 k ^ 2 =
        ∑ k ∈ Finset.range obs.length, Λ obs.length k * Λ obs.length k := by
      rw [hn]
      refine Finset.sum_congr rfl fun k hk => ?_
      rw [hz k (Finset.mem_range.mp hk)]
      ring
    rw [hzz]
    nlinarith [hcorner]
  have hrpos : 0 < radicand s o.1 := by
    rw [hrad]
    exact pow_two_pos_of_ne_zero (ne_of_gt (hΛdiag obs.length (by omega)))
  refine ⟨updState s o.1 o.2, update_ok_iff.mpr ⟨hrpos, rfl⟩, ?_, ?_, ?_, ?_,
    ?_, ?_, ?_⟩
  · rw [updState_n, hn]
    simp
  · rw [updState_kernel]; exact hk
  · rw [updState_mean]; exact hm
  · rw [updState_noise]; exact hσ
  · intro i hi
    rw [List.length_append, List.length_singleton] at hi
    rcases Nat.lt_succ_iff_lt_or_eq.mp hi with hi' | hi'
    · rw [updState_features_lt s o.1 o.2 (by omega), hfeat i hi',
        obsFeat_append_lt obs [o] hi']
    · rw [hi', ← hn, updState_features_last, hn,
        show obs ++ [o] = obs ++ o :: [] from rfl, obsFeat_append_at]
  · intro i hi
    rw [List.length_append, List.length_singleton] at hi
    rcases Nat.lt_succ_iff_lt_or_eq.mp hi with hi' | hi'
    · rw [updState_targets_lt s o.1 o.2 (by omega), htarg i hi',
        obsTarg_append_lt obs [o] hi']
    · rw [hi', ← hn, updState_targets_last, hn,
        show obs ++ [o] = obs ++ o :: [] from rfl, obsTarg_append_at]
  · exact updState_inv (fun a b => by rw [hk]; exact hsym a b) hinv hrpos

theorem updateFold_nil {D P : Nat} (s : PosteriorState D P) :
    updateFold s [] = .ok s := rfl

theorem updateFold_cons {D P : Nat} (s : PosteriorState D P)
    (o : (Fin D → ℝ) × (Fin P → ℝ)) (rest : List ((Fin D → ℝ) × (Fin P → ℝ))) :
    updateFold s (o :: rest) =
      update s o.1 o.2 >>= fun t => updateFold t rest := by
  unfold updateFold
  rw [List.foldlM_cons]

/-- Folding the remaining observations one update at a time succeeds from
any conforming state, and the result conforms to the full list, as long
as the full regularized covariance block is positive definite. -/
theorem updateFold_conforms {D P : Nat} {lik : Likelihood D P}
    (hsym : ∀ a b, lik.kernel a b = lik.kernel b a) :
    ∀ (suf obs : List ((Fin D → ℝ) × (Fin P → ℝ))) (s : PosteriorState D P),
      Conforms lik obs s →
      PosDefN (obs ++ suf).length (covOf lik (obs ++ suf)) →
      ∃ s', updateFold s suf = .ok s' ∧ Conforms lik (obs ++ suf) s' := by
  intro suf
  induction suf with
  | nil =>
    intro obs s hc _
    exact ⟨s, updateFold_nil s, by simpa using hc⟩
  | cons o rest ih =>
    intro obs s hc hpd
    have hfa : ∀ i, i < obs.length + 1 →
        obsFeat (obs ++ o :: rest) i = obsFeat (obs ++ [o]) i := by
      intro i hi
      rcases Nat.lt_succ_iff_lt_or_eq.mp hi with hi' | hi'
      · rw [obsFeat_append_lt obs (o :: rest) hi',
          obsFeat_append_lt obs [o] hi']
      · rw [hi', obsFeat_append_at obs rest o,
          show obs ++ [o] = obs ++ o :: [] from rfl, obsFeat_append_at]
    have hagree : ∀ i j, i < obs.length + 1 → j < obs.length + 1 →
        covOf lik (obs ++ o :: rest) i j = covOf lik (obs ++ [o]) i j := by
      intro i j hi hj
      unfold covOf covMat
      rw [hfa i hi, hfa j hj]
    have hpd1 : PosDefN (obs.length + 1) (covOf lik (obs ++ [o])) := by
      refine posDefN_congr hagree (posDefN_mono ?_ hpd)
      simp
    obtain ⟨s₁, hs₁, hc₁⟩ := step_conforms hsym hc hpd1
    have hassoc : (obs ++ [o]) ++ rest = obs ++ o :: rest := by simp
    obtain ⟨s', hs', hc'⟩ := ih (obs ++ [o]) s₁ hc₁ (by rw [hassoc]; exact hpd)
    refine ⟨s', ?_, by rw [← hassoc]; exact hc'⟩
    rw [updateFold_cons, hs₁]
    simpa using hs'

/-- Two states conforming to the same observation list agree on the
factor and on `pred_mat` within range: the posterior state over given
data is unique. -/
theorem conforms_unique {D P : Nat} {lik : Likelihood D P}
    {obs : List ((Fin D → ℝ) × (Fin P → ℝ))} {s₁ s₂ : PosteriorState D P}
    (h₁ : Conforms lik obs s₁) (h₂ : Conforms lik obs s₂) :
    (∀ i j, i < obs.length → j < obs.length →
        s₁.chol_fact i j = s₂.chol_fact i j) ∧
      (∀ i c, i < obs.length → s₁.pred_mat i c = s₂.pred_mat i c) := by
  obtain ⟨hn₁, hk₁, hm₁, hσ₁, hf₁, ht₁, hinv₁⟩ := h₁
  obtain ⟨hn₂, hk₂, hm₂, hσ₂, hf₂, ht₂, hinv₂⟩ := h₂
  have hprod : ∀ i j, i < obs.length → j < obs.length →
      prodEntry obs.length s₁.chol_fact i j =
        prodEntry obs.length s₂.chol_fact i j := by
    intro i j hi hj
    have e₁ := hinv₁.fact i j (by omega) (by omega)
    have e₂ := hinv₂.fact i j (by omega) (by omega)
    rw [hn₁] at e₁
    rw [hn₂] at e₂
    rw [e₁, e₂, hf₁ i hi, hf₁ j hj, hf₂ i hi, hf₂ j hj, hk₁, hk₂, hσ₁, hσ₂]
  have hchol := chol_unique obs.length s₁.chol_fact s₂.chol_fact
    (fun i j hij hj => hinv₁.tri i j hij (by omega))
    (fun i j hij hj => hinv₂.tri i j hij (by omega))
    (fun i hi => hinv₁.diag i (by omega))
    (fun i hi => hinv₂.diag i (by omega)) hprod
  refine ⟨fun i j hi hj => hchol j i hj hi, ?_⟩
  intro i c hi
  refine fSolve_unique obs.length s₁.chol_fact
    (fun r => obsTarg obs r c - lik.mean (obsFeat obs r) c)
    (fun a b hab hb => hinv₁.tri a b hab (by omega))
    (fun r hr => ne_of_gt (hinv₁.diag r (by omega)))
    (fun k => s₁.pred_mat k c) (fun k => s₂.pred_mat k c) ?_ ?_ i hi
  · intro r hr
    have h := hinv₁.resid r c (by omega)
    rw [hn₁] at h
    rw [h, ht₁ r hr, hf₁ r hr, hm₁]
  · intro r hr
    have h := hinv₂.resid r c (by omega)
    rw [hn₂] at h
    have hsum : ∑ k ∈ Finset.range obs.length,
        s₁.chol_fact r k * s₂.pred_mat k c =
          ∑ k ∈ Finset.range obs.length,
            s₂.chol_fact r k * s₂.pred_mat k c := by
      refine Finset.sum_congr rfl fun k hk => ?_
      rw [hchol k r (Finset.mem_range.mp hk) hr]
    rw [hsum, h, ht₂ r hr, hf₂ r hr, hm₂]

theorem fitObs_ok {D P : Nat} {lik : Likelihood D P}
    {obs : List ((Fin D → ℝ) × (Fin P → ℝ))}
    (hσ : noiseLowerBound ≤ lik.noise_variance)
    (hpd : PosDefN obs.length (covOf lik obs)) :
    ∃ s, fitObs lik obs = .ok s := by
  obtain ⟨L, hL⟩ := cholOpt_complete obs.length (covOf lik obs) hpd
  have hlen : (obs.map Prod.fst).length = (obs.map Prod.snd).length := by simp
  refine ⟨_, @fit_ok_of D P lik _ _ L hlen (not_lt.mpr hσ) ?_⟩
  rw [List.length_map]
  exact hL

/-! ### The claims -/

/-- C1: for every sequence of observations split anywhere into a prefix
and a suffix (the suffix in any insertion order), fitting the prefix in
batch and then applying `update` one observation at a time yields a
PosteriorState whose `chol_fact` and `pred_mat` equal those of a single
batch `fit` over the whole sequence — in the exact-arithmetic model the
spec's solver tolerance becomes exact equality.  Hypotheses: the kernel
is symmetric and positive semidefinite over the observed features, and
the noise variance is at least the floor, i.e. the Likelihood is valid. -/
theorem C1_incremental_matches_batch {D P : Nat} (lik : Likelihood D P)
    (pre suf : List ((Fin D → ℝ) × (Fin P → ℝ)))
    (hsym : ∀ a b, lik.kernel a b = lik.kernel b a)
    (hpsd : PosSemidefN (pre ++ suf).length
      (fun i j => lik.kernel (obsFeat (pre ++ suf) i) (obsFeat (pre ++ suf) j)))
    (hσ : noiseLowerBound ≤ lik.noise_variance) :
    ∃ s₁ s₂, (fitObs lik pre >>= fun s => updateFold s suf) = .ok s₁ ∧
      fitObs lik (pre ++ suf) = .ok s₂ ∧ s₁.n = s₂.n ∧
        (∀ i j, i < s₁.n → j < s₁.n → s₁.chol_fact i j = s₂.chol_fact i j) ∧
          (∀ i c, i < s₁.n → s₁.pred_mat i c = s₂.pred_mat i c) := by
  have hσpos : 0 < lik.noise_variance :=
    lt_of_lt_of_le noiseLowerBound_pos hσ
  have hpdfull : PosDefN (pre ++ suf).length (covOf lik (pre ++ suf)) :=
    covMat_posDef hpsd hσpos
  have hpdpre : PosDefN pre.length (covOf lik pre) := by
    refine posDefN_congr ?_ (posDefN_mono ?_ hpdfull)
    · intro i j hi hj
      unfold covOf covMat
      rw [obsFeat_append_lt pre suf hi, obsFeat_append_lt pre suf hj]
    · simp
  obtain ⟨s₀, hs₀⟩ := fitObs_ok hσ hpdpre
  have hc₀ := fitObs_ok_conforms hsym hs₀
  obtain ⟨s₁, hs₁, hc₁⟩ := updateFold_conforms hsym suf pre s₀ hc₀ hpdfull
  obtain ⟨s₂, hs₂⟩ := fitObs_ok hσ hpdfull
  have hc₂ := fitObs_ok_conforms hsym hs₂
  obtain ⟨hchol, hpred⟩ := conforms_unique hc₁ hc₂
  have hn₁ : s₁.n = (pre ++ suf).length := hc₁.1
  refine ⟨s₁, s₂, ?_, hs₂, ?_, ?_, ?_⟩
  · rw [hs₀]
    simpa using hs₁
  · rw [hn₁, hc₂.1]
  · intro i j hi hj
    rw [hn₁] at hi hj
    exact hchol i j hi hj
  · intro i c hi
    rw [hn₁] at hi
    exact hpred i c hi

/-- C2: the `chol_fact` L of a PosteriorState produced by `fit` from a
valid (symmetric-kernel) Likelihood satisfies `L·Lᵗ = K(X,X) +
noise_variance·I` on the n-block — exactly, in the exact-arithmetic
model. -/
theorem C2_chol_factorizes_covariance {D P : Nat} (lik : Likelihood D P)
    (fs : List (Fin D → ℝ)) (ts : List (Fin P → ℝ)) (s : PosteriorState D P)
    (hsym : ∀ a b, lik.kernel a b = lik.kernel b a)
    (h : fit lik fs ts = .ok s) :
    ∀ i j, i < s.n → j < s.n →
      prodEntry s.n s.chol_fact i j =
        lik.kernel (featOfL fs i) (featOfL fs j) +
          (if i = j then lik.noise_variance else 0) := by
  have hinv := fit_ok_inv hsym h
  obtain ⟨hn, hf, _, hk, _, hσ, _, _, _, _⟩ := fit_ok_fields h
  intro i j hi hj
  rw [hinv.fact i j hi hj, hf, hk, hσ]

/-- C3: a successful `update` returns a new PosteriorState that extends
the input state's data by exactly one row — every stored field of the
input state reappears unchanged in the region below the old size, the
new row holds the new observation, and the noise variance, kernel and
mean are carried over.  (In this purely functional model no operation
can mutate the input state itself, so immutability holds by
construction; this theorem states the extension contract.) -/
theorem C3_update_extends_by_one_row {D P : Nat} (s s' : PosteriorState D P)
    (x : Fin D → ℝ) (y : Fin P → ℝ) (h : update s x y = .ok s') :
    s'.n = s.n + 1 ∧
      (∀ i, i < s.n → s'.features i = s.features i ∧
        s'.targets i = s.targets i ∧ s'.pred_mat i = s.pred_mat i) ∧
        s'.features s.n = x ∧ s'.targets s.n = y ∧
          (∀ i j, i < s.n → j < s.n → s'.chol_fact i j = s.chol_fact i j) ∧
            s'.noise_variance = s.noise_variance ∧ s'.kernel = s.kernel ∧
              s'.mean = s.mean := by
  obtain ⟨hr, rfl⟩ := update_ok_iff.mp h
  exact ⟨updState_n s x y,
    fun i hi => ⟨updState_features_lt s x y hi, updState_targets_lt s x y hi,
      updState_pred_lt s x y hi⟩,
    updState_features_last s x y, updState_targets_last s x y,
    fun i j hi hj => updState_chol_block s x y hi hj,
    updState_noise s x y, updState_kernel s x y, updState_mean s x y⟩

/-- The states the engine's API can produce: a batch `fit` result, or a
successful `update` of a produced state. -/
inductive Produced {D P : Nat} : PosteriorState D P → Prop where
  | fit : ∀ (lik : Likelihood D P) fs ts s, fit lik fs ts = .ok s → Produced s
  | update : ∀ (s : PosteriorState D P) x y s', Produced s →
      update s x y = .ok s' → Produced s'

theorem updState_tri_diag {D P : Nat} {s : PosteriorState D P}
    {x : Fin D → ℝ} {y : Fin P → ℝ}
    (htri : LowerTri s.n s.chol_fact) (hdiag : PosDiag s.n s.chol_fact)
    (hr : 0 < radicand s x) :
    LowerTri (updState s x y).n (updState s x y).chol_fact ∧
      PosDiag (updState s x y).n (updState s x y).chol_fact := by
  constructor
  · intro i j hij hj
    rw [updState_n] at hj
    rcases Nat.lt_succ_iff_lt_or_eq.mp hj with hj' | hj'
    · rw [updState_chol_block s x y (show i < s.n by omega) hj']
      exact htri i j hij hj'
    · subst hj'
      exact updState_chol_newcol s x y (show i < s.n by omega)
  · intro i hi
    rw [updState_n] at hi
    rcases Nat.lt_succ_iff_lt_or_eq.mp hi with hi' | hi'
    · rw [updState_chol_block s x y hi' hi']
      exact hdiag i hi'
    · subst hi'
      rw [updState_chol_corner]
      exact Real.sqrt_pos.mpr hr

/-- C4: every PosteriorState produced by `fit`, or by any chain of
successful `update` calls from one, has a `chol_fact` that is
lower-triangular on its n-block with strictly positive diagonal. -/
theorem C4_chol_lower_triangular_pos_diag {D P : Nat}
    (s : PosteriorState D P) (h : Produced s) :
    LowerTri s.n s.chol_fact ∧ PosDiag s.n s.chol_fact := by
  induction h with
  | fit lik fs ts s hfit =>
    obtain ⟨hn, _, _, _, _, _, _, _, hchol, _⟩ := fit_ok_fields hfit
    obtain ⟨_, htri, hdiag, _⟩ := cholOpt_sound _ _ _ hchol
    refine ⟨fun i j hij _ => htri i j hij, ?_⟩
    rw [hn]
    exact hdiag
  | update s x y s' hprod hupd ih =>
    obtain ⟨hr, rfl⟩ := update_ok_iff.mp hupd
    exact updState_tri_diag ih.1 ih.2 hr

/-- C5: `update` fails, with a value-carrying numerical-instability
error, exactly when the new diagonal radicand
`k(x*,x*) + noise_variance − zᵗz` is non-positive; when the radicand is
positive it returns the extended PosteriorState.  (The exact real model
has no NaN or complex values to leak.) -/
theorem C5_update_fails_iff_radicand_nonpos {D P : Nat}
    (s : PosteriorState D P) (x : Fin D → ℝ) (y : Fin P → ℝ) :
    (update s x y = .error GPError.numericalInstabilityError ↔
        radicand s x ≤ 0) ∧
      (0 < radicand s x → update s x y = .ok (updState s x y)) := by
  refine ⟨update_error_iff, fun hr => ?_⟩
  exact update_ok_iff.mpr ⟨hr, rfl⟩

/-- C6: every chain of successful incremental updates leaves the noise
variance exactly as it was copied into the starting state; `update`
never alters it. -/
theorem C6_noise_variance_preserved {D P : Nat} :
    ∀ (obs : List ((Fin D → ℝ) × (Fin P → ℝ)))
      (s s' : PosteriorState D P), updateFold s obs = .ok s' →
        s'.noise_variance = s.noise_variance := by
  intro obs
  induction obs with
  | nil =>
    intro s s' h
    rw [updateFold_nil] at h
    rw [← Except.ok.inj h]
  | cons o rest ih =>
    intro s s' h
    rw [updateFold_cons] at h
    rcases hu : update s o.1 o.2 with e | t
    · rw [hu] at h
      exact Except.noConfusion h
    · rw [hu] at h
      obtain ⟨_, rfl⟩ := update_ok_iff.mp hu
      have := ih (updState s o.1 o.2) s' h
      rw [this, updState_noise]

/-- C7 (amended): `predict` on an empty PosteriorState (N = 0) returns
the prior mean `mean(x)` and the prior variance `k(x,x)` clipped at the
non-negative floor; the observation-noise variance is not added by the
predictive query. -/
theorem C7_empty_predict_prior {D P : Nat} (s : PosteriorState D P)
    (x : Fin D → ℝ) (h0 : s.n = 0) :
    (∀ c, (predict s x).1 c = s.mean x c) ∧
      (predict s x).2 = max 0 (s.kernel x x) := by
  constructor
  · intro c
    simp [predict, h0]
  · simp [predict, h0]

/-- C8: every entry of the predictive variance vector over any set of
query points is non-negative (the variance is clipped at the
non-negative floor). -/
theorem C8_predictive_variance_nonneg {D P : Nat} (s : PosteriorState D P)
    (qs : List (Fin D → ℝ)) :
    ∀ p ∈ predictList s qs, 0 ≤ p.2 := by
  intro p hp
  obtain ⟨q, _, rfl⟩ := List.mem_map.mp hp
  exact le_max_left 0 _

/-- C9: `fit` rejects invalid input — mismatched feature/target row
counts, or noise variance below the positive floor (in particular
negative) — with a value-carrying ValidationError, before any
computation and without coercing it; and whenever a PosteriorState is
produced the input was valid and the state satisfies the
internal-consistency invariant (its factor matches its stored data).
Non-finite inputs cannot be expressed in the exact real model. -/
theorem C9_fit_validates_input {D P : Nat} (lik : Likelihood D P)
    (fs : List (Fin D → ℝ)) (ts : List (Fin P → ℝ))
    (hsym : ∀ a b, lik.kernel a b = lik.kernel b a) :
    ((fs.length ≠ ts.length ∨ lik.noise_variance < noiseLowerBound) →
        fit lik fs ts =
          .error (.validationError fs.length ts.length lik.noise_variance)) ∧
      (∀ s, fit lik fs ts = .ok s →
        (fs.length = ts.length ∧ noiseLowerBound ≤ lik.noise_variance) ∧
          StateInv s) := by
  constructor
  · intro hbad
    unfold fit
    by_cases hlen : fs.length ≠ ts.length
    · rw [if_pos hlen]
    · rw [if_neg hlen, if_pos (by tauto)]
  · intro s h
    obtain ⟨_, _, _, _, _, _, hlen, hfloor, _, _⟩ := fit_ok_fields h
    exact ⟨⟨hlen, hfloor⟩, fit_ok_inv hsym h⟩

/-! ### Concrete instances used by the witnesses -/

/-- A concrete query/observation feature vector. -/
def xW : Fin 1 → ℝ := fun _ => 0

/-- A concrete target row. -/
def yW : Fin 1 → ℝ := fun _ => 1

/-- A concrete valid Likelihood: the identically-zero kernel (trivially
symmetric and positive semidefinite), zero mean, unit noise variance. -/
def likW : Likelihood 1 1 :=
  { kernel := fun _ _ => 0, mean := fun _ _ => 0, noise_variance := 1 }

theorem likW_symm : ∀ a b, likW.kernel a b = likW.kernel b a :=
  fun _ _ => rfl

/-- The regularized covariance of the one-observation data set. -/
def AW : Nat → Nat → ℝ := covMat likW.kernel (featOfL [xW]) likW.noise_variance

/-- Its Cholesky factor. -/
def LW : Nat → Nat → ℝ := extendChol 0 AW (fun _ _ => 0)

/-- The state `fit likW [xW] [yW]` produces. -/
def sW : PosteriorState 1 1 :=
  { n := 1
    features := featOfL [xW]
    targets := targOfL [yW]
    chol_fact := LW
    pred_mat := fun i c =>
      fSolve LW (fun r => targOfL [yW] r c - likW.mean (featOfL [xW] r) c) i
    kernel := likW.kernel
    mean := likW.mean
    noise_variance := likW.noise_variance }

theorem AW_pivot : (0 : ℝ) < AW 0 0 := by
  norm_num [AW, covMat, likW]

theorem cholOpt_AW : cholOpt ([xW] : List (Fin 1 → ℝ)).length AW = some LW :=
  cholOpt_succ_eq_some.mpr ⟨AW_pivot, fun _ _ => 0, cholOpt_zero_eq _, rfl⟩

theorem fitW : fit likW [xW] [yW] = .ok sW :=
  fit_ok_of rfl (by norm_num [likW, noiseLowerBound]) cholOpt_AW

theorem radicand_sW : radicand sW xW = 1 := by
  have hz : updateZ sW xW 0 = 0 := by
    unfold updateZ
    rw [fSolve_eq]
    simp [crossCov, sW, likW]
  unfold radicand
  rw [show sW.n = 1 from rfl, Finset.sum_range_one, hz]
  norm_num [sW, likW]

theorem updW : update sW xW yW = .ok (updState sW xW yW) :=
  update_ok_iff.mpr ⟨by rw [radicand_sW]; norm_num, rfl⟩

theorem foldW : updateFold sW [(xW, yW)] = .ok (updState sW xW yW) := by
  rw [updateFold_cons, updW]
  rfl

theorem likW_psd : PosSemidefN (([] ++ [(xW, yW)] :
    List ((Fin 1 → ℝ) × (Fin 1 → ℝ)))).length
      (fun i j => likW.kernel (obsFeat ([] ++ [(xW, yW)]) i)
        (obsFeat ([] ++ [(xW, yW)]) j)) := by
  refine ⟨fun i j _ _ => rfl, fun x => ?_⟩
  simp [likW]

/-- A concrete Likelihood with constant unit kernel, for the empty-state
counterexample. -/
def likC : Likelihood 1 1 :=
  { kernel := fun _ _ => 1, mean := fun _ _ => 0, noise_variance := 1 }

/-- The empty state `fit likC [] []` produces. -/
def sC : PosteriorState 1 1 :=
  { n := 0
    features := featOfL ([] : List (Fin 1 → ℝ))
    targets := targOfL ([] : List (Fin 1 → ℝ))
    chol_fact := fun _ _ => 0
    pred_mat := fun i c =>
      fSolve (fun _ _ => 0)
        (fun r => targOfL ([] : List (Fin 1 → ℝ)) r c -
          likC.mean (featOfL ([] : List (Fin 1 → ℝ)) r) c) i
    kernel := likC.kernel
    mean := likC.mean
    noise_variance := likC.noise_variance }

theorem fitC : fit likC [] [] = .ok sC :=
  fit_ok_of rfl (by norm_num [likC, noiseLowerBound]) (cholOpt_zero_eq _)

/-! ### Witnesses and the counterexample -/

theorem C1_witness :
    ∃ s₁ s₂, (fitObs likW [] >>= fun s => updateFold s [(xW, yW)]) = .ok s₁ ∧
      fitObs likW ([] ++ [(xW, yW)]) = .ok s₂ ∧ s₁.n = s₂.n ∧
        (∀ i j, i < s₁.n → j < s₁.n → s₁.chol_fact i j = s₂.chol_fact i j) ∧
          (∀ i c, i < s₁.n → s₁.pred_mat i c = s₂.pred_mat i c) :=
  C1_incremental_matches_batch likW [] [(xW, yW)] likW_symm likW_psd
    (by norm_num [likW, noiseLowerBound])

theorem C2_witness :
    ∃ s, fit likW [xW] [yW] = .ok s ∧
      ∀ i j, i < s.n → j < s.n →
        prodEntry s.n s.chol_fact i j =
          likW.kernel (featOfL [xW] i) (featOfL [xW] j) +
            (if i = j then likW.noise_variance else 0) :=
  ⟨sW, fitW, C2_chol_factorizes_covariance likW [xW] [yW] sW likW_symm fitW⟩

theorem C3_witness : (updState sW xW yW).n = sW.n + 1 :=
  (C3_update_extends_by_one_row sW (updState sW xW yW) xW yW updW).1

theorem C4_witness : LowerTri sW.n sW.chol_fact ∧ PosDiag sW.n sW.chol_fact :=
  C4_chol_lower_triangular_pos_diag sW (Produced.fit likW [xW] [yW] sW fitW)

theorem C6_witness :
    (updState sW xW yW).noise_variance = sW.noise_variance :=
  C6_noise_variance_preserved [(xW, yW)] sW (updState sW xW yW) foldW

theorem C7_counterexample :
    fit likC [] [] = .ok sC ∧
      (predict sC xW).2 ≠ likC.kernel xW xW + likC.noise_variance := by
  refine ⟨fitC, ?_⟩
  show max 0 (sC.kernel xW xW -
      ∑ i ∈ Finset.range sC.n,
        fSolve sC.chol_fact (fun r => sC.kernel (sC.features r) xW) i ^ 2) ≠ _
  rw [show sC.n = 0 from rfl]
  norm_num [sC, likC]

theorem C7_witness :
    (∀ c, (predict sC xW).1 c = sC.mean xW c) ∧
      (predict sC xW).2 = max 0 (sC.kernel xW xW) :=
  C7_empty_predict_prior sC xW rfl

theorem C8_witness : 0 ≤ (predict sW xW).2 :=
  C8_predictive_variance_nonneg sW [xW] (predict sW xW) (by simp [predictList])

theorem C9_witness :
    fit likW [xW] [] = .error (GPError.validationError 1 0 1) :=
  (C9_fit_validates_input likW [xW] [] likW_symm).1 (Or.inl (by simp))

end

/-!
### The nashpobench cost model

Embedding of `get_cost_model` and `nashpobench_benchmark` from
benchmarking/definitions/definition_nashpobench.py.  Python exceptions
are modelled with `Except`; the outcome of the two external effects
inside the try-block — the import of FixedLayersMLPCostModel and the
call to `get_expected_hidden_layer_width` — is supplied by a
`CostModelEnv`, since their own code is outside this file's scope.
A params dictionary is modelled by its two keys this module reads.
-/

/-- A Python exception, by provenance. -/
inductive PyError where
  | keyError
  | importError
  | otherError
  deriving DecidableEq

/-- The two entries of the params dictionary this module reads; a `none`
field models an absent key (subscripting it raises KeyError). -/
structure BenchParams where
  dataset_name : Option String
  max_resource_level : Option Nat
  deriving DecidableEq

/-- Outcomes of the external effects inside `get_cost_model`'s try-block:
whether the import of FixedLayersMLPCostModel succeeds, and what
`get_expected_hidden_layer_width(_config_space, num_units_keys)`
returns (or raises). -/
structure CostModelEnv where
  import_ok : Bool
  expected_width : Except PyError ℚ

/-- NUM_UNITS_1 from fcnet_import (exact string immaterial here). -/
def NUM_UNITS_1 : String := "hp_n_units_1"

/-- NUM_UNITS_2 from fcnet_import (exact string immaterial here). -/
def NUM_UNITS_2 : String := "hp_n_units_2"

/-- METRIC_VALID_LOSS from fcnet_import (exact string immaterial here). -/
def METRIC_VALID_LOSS : String := "metric_valid_loss"

/-- The `_NUM_FEATURES` table (Table 1 of arXiv:1905.04970); `none`
models a key lookup that raises KeyError. -/
def NUM_FEATURES : String → Option Nat
  | "protein_structure" => some 9
  | "naval_propulsion" => some 15
  | "parkinsons_telemonitoring" => some 20
  | "slice_localization" => some 385
  | _ => none

/-- The constructed cost model (the FixedLayersMLPCostModel constructor
arguments, as `get_cost_model` passes them). -/
structure FixedLayersMLPCostModel where
  num_inputs : Nat
  num_outputs : Nat
  num_units_keys : List String
  expected_hidden_layer_width : ℚ
  deriving DecidableEq

/-- The body of `get_cost_model`'s try-block, step by step: import,
`_NUM_FEATURES[params['dataset_name']]`, the expected-width call, the
constructor. -/
def get_cost_model_body (env : CostModelEnv) (params : BenchParams) :
    Except PyError FixedLayersMLPCostModel :=
  if env.import_ok then
    match params.dataset_name with
    | none => .error PyError.keyError
    | some name =>
      match NUM_FEATURES name with
      | none => .error PyError.keyError
      | some ni =>
        match env.expected_width with
        | .error e => .error e
        | .ok w =>
          .ok
            { num_inputs := ni
              num_outputs := 1
              num_units_keys := [NUM_UNITS_1, NUM_UNITS_2]
              expected_hidden_layer_width := w }
  else .error PyError.importError

/-- `get_cost_model`: the try-block's value on success, None on any
exception (`except Exception: return None`). -/
def get_cost_model (env : CostModelEnv) (params : BenchParams) :
    Option FixedLayersMLPCostModel :=
  match get_cost_model_body env params with
  | .ok m => some m
  | .error _ => none

/-- The benchmark dictionary `nashpobench_benchmark` returns (the fields
relevant here; the remaining entries of the dictionary are constants). -/
structure BenchmarkRecord where
  script : Option String
  metric : String
  mode : String
  epochs : Nat
  dataset_name : String
  cost_model : Option FixedLayersMLPCostModel
  supports_simulated : Bool
  deriving DecidableEq

/-- `nashpobench_benchmark`: reads `params['max_resource_level']` and
`params['dataset_name']` (raising KeyError when absent) and returns the
benchmark dictionary, with `cost_model := get_cost_model(params)`. -/
def nashpobench_benchmark (env : CostModelEnv) (params : BenchParams) :
    Except PyError BenchmarkRecord :=
  match params.max_resource_level with
  | none => .error PyError.keyError
  | some lvl =>
    match params.dataset_name with
    | none => .error PyError.keyError
    | some name =>
      .ok
        { script := none
          metric := METRIC_VALID_LOSS
          mode := "min"
          epochs := lvl
          dataset_name := name
          cost_model := get_cost_model env params
          supports_simulated := true }

/-- C10: `get_cost_model` never raises: it returns the constructed
FixedLayersMLPCostModel exactly when the try-block succeeds and None
whenever any exception occurs inside — in particular for a
`dataset_name` that is not a key of `_NUM_FEATURES` and for a
failed import — and `nashpobench_benchmark` still returns a benchmark
dictionary in that case (it fails only when a key it reads itself is
absent). -/
theorem C10_get_cost_model_never_raises (env : CostModelEnv)
    (params : BenchParams) :
    ((∃ m, get_cost_model env params = some m ∧
        get_cost_model_body env params = .ok m) ∨
      (get_cost_model env params = none ∧
        ∃ e, get_cost_model_body env params = .error e)) ∧
      (∀ name, params.dataset_name = some name → NUM_FEATURES name = none →
        get_cost_model env params = none) ∧
      (env.import_ok = false → get_cost_model env params = none) ∧
      (∀ lvl name, params.max_resource_level = some lvl →
        params.dataset_name = some name →
          ∃ b, nashpobench_benchmark env params = .ok b ∧
            b.cost_model = get_cost_model env params) := by
  refine ⟨?_, ?_, ?_, ?_⟩
  · rcases hb : get_cost_model_body env params with e | m
    · exact Or.inr ⟨by rw [get_cost_model, hb], e, rfl⟩
    · exact Or.inl ⟨m, by rw [get_cost_model, hb], rfl⟩
  · intro name hname hnone
    rcases himp : env.import_ok with _ | _
    · simp [get_cost_model, get_cost_model_body, himp]
    · simp [get_cost_model, get_cost_model_body, himp, hname, hnone]
  · intro himp
    simp [get_cost_model, get_cost_model_body, himp]
  · intro lvl name hlvl hname
    rw [nashpobench_benchmark, hlvl, hname]
    exact ⟨_, rfl, rfl⟩

theorem C10_witness :
    get_cost_model ⟨true, .ok 1⟩ ⟨some "cifar10", some 100⟩ = none ∧
      ∃ b, nashpobench_benchmark ⟨true, .ok 1⟩ ⟨some "cifar10", some 100⟩ =
          .ok b ∧ b.cost_model = none := by
  have h := C10_get_cost_model_never_raises ⟨true, .ok 1⟩
    ⟨some "cifar10", some 100⟩
  have hnone : get_cost_model ⟨true, .ok 1⟩ ⟨some "cifar10", some 100⟩ =
      none := h.2.1 "cifar10" rfl rfl
  obtain ⟨b, hb, hbc⟩ := h.2.2.2 100 "cifar10" rfl rfl
  exact ⟨hnone, b, hb, by rw [hbc, hnone]⟩













